import Mathlib

/-!
Shallow embedding of `providers/bind/prettyzone.go`: the zone-file record
comparator (`zoneGenData.Less`, `zoneLabelLess`, `zoneRrtypeLess`) and the
pretty renderer (`WriteZoneFile`, `generateZoneFileHelper`, `formatLine`).

Go strings are modelled as Lean `String`; Go's byte-wise string comparison
agrees with code-point lexicographic comparison on UTF-8 data, which is the
order used here (via `ltCharList` on `String.data`).  Machine integers
(`uint16` record types, `uint32` TTLs) are modelled as `Nat`: the source only
compares them, never performs arithmetic, so no wrap-around is observable.
Process-terminating calls (`log.Fatalf`, out-of-range index panics) are
modelled as `none` of an `Option` result.
-/

/-- Numeric code of the A record type (`dns.TypeA`). -/
def TypeA : Nat := 1

/-- Numeric code of the NS record type (`dns.TypeNS`). -/
def TypeNS : Nat := 2

/-- Numeric code of the SOA record type (`dns.TypeSOA`). -/
def TypeSOA : Nat := 6

/-- Numeric code of the MX record type (`dns.TypeMX`). -/
def TypeMX : Nat := 15

/-- Numeric code of the Internet class (`dns.ClassINET`). -/
def ClassINET : Nat := 1

/-- Model of one `dns.RR` as consumed by prettyzone.go: the header fields
(`Name`, `Rrtype`, `Ttl`, `Class`), the two typed payload accessors the
comparator uses (`(*dns.A).A.To4()` and `(*dns.MX).Preference`), and the
canonical one-line rendering `rr.String()`.  `to4 = none` models a `nil`
result of `To4()`. -/
structure RR where
  name : String
  rrtype : Nat
  ttl : Nat
  cls : Nat
  to4 : Option (List Nat)
  preference : Nat
  line : String
deriving DecidableEq, Repr

/-- Modelled from the spec: external collaborator `dns.IsFqdn` (miekg/dns),
true when the name ends with a dot. -/
def isFqdn (s : String) : Bool :=
  match s.data.getLast? with
  | some c => c = '.'
  | none => false

/-- Modelled from the spec: external collaborator `dnsutil.AddOrigin`
(miekg/dns), which qualifies a relative name with the origin and expands the
apex sentinels to the origin itself. -/
def addOrigin (s origin : String) : String :=
  if s.data = [] then origin
  else if s = "@" then origin
  else if s = "." then origin
  else if isFqdn s then s
  else if origin.data = [] then s
  else s ++ "." ++ origin

/-- Generic boolean lexicographic strict comparison of lists: the first
unequal element pair decides via `lt`; a strict prefix is smaller.  This is
the comparison shape shared by Go's `string <` and `bytes.Compare(a,b) == -1`. -/
def lexLt {α : Type} [DecidableEq α] (lt : α → α → Bool) : List α → List α → Bool
  | _, [] => false
  | [], _ :: _ => true
  | a :: as, b :: bs => if a = b then lexLt lt as bs else lt a b

/-- Go's byte-wise `string <`, on the character list of a string. -/
def ltCharList : List Char → List Char → Bool :=
  lexLt (fun a b => decide (a < b))

/-- Go's `bytes.Compare(a, b) == -1` on byte slices. -/
def bytesCompareLt : List Nat → List Nat → Bool :=
  lexLt (fun a b => decide (a < b))

/-- Model of Go's `strings.Split(s, ".")` on the character list: `splitD acc cs`
carries the (reversed) characters of the current component in `acc`. -/
def splitD (acc : List Char) : List Char → List (List Char)
  | [] => [acc.reverse]
  | c :: cs => if c = '.' then acc.reverse :: splitD [] cs else splitD (c :: acc) cs

/-- The loop of `zoneLabelLess`: components are compared from the rightmost
toward the left (the arguments here are the reversed component lists), the
first unequal pair decides by plain string comparison, and when the shared
right-aligned components are all equal the label with fewer components is
smaller. -/
def revLess : List (List Char) → List (List Char) → Bool :=
  lexLt ltCharList

/-- Translation of `zoneLabelLess` from prettyzone.go: equal labels are not
less; `"@"` sorts before everything; `"*"` sorts before everything but `"@"`;
otherwise split on `'.'` and compare components right to left. -/
def zoneLabelLess (a b : String) : Bool :=
  if a = b then false
  else if a = "@" then true
  else if b = "@" then false
  else if a = "*" then true
  else if b = "*" then false
  else revLess (splitD [] a.data).reverse (splitD [] b.data).reverse

/-- Translation of `zoneRrtypeLess` from prettyzone.go: equal types are not
less; SOA sorts before everything; NS before everything but SOA; all other
types by numeric code. -/
def zoneRrtypeLess (a b : Nat) : Bool :=
  if a = b then false
  else if a = TypeSOA then true
  else if b = TypeSOA then false
  else if a = TypeNS then true
  else if b = TypeNS then false
  else decide (a < b)

/-- Translation of `(*zoneGenData).Less` from prettyzone.go, as a curried
comparison of two records under an origin.  `none` models the
`log.Fatalf` call taken when an A record's address is not reducible to four
bytes (`To4() == nil`); every other path returns the boolean the Go method
returns. -/
def zoneGenDataLess (o : String) (a b : RR) : Option Bool :=
  let compA := addOrigin a.name (o ++ ".")
  let compB := addOrigin b.name (o ++ ".")
  if compA ≠ compB then
    some (zoneLabelLess (if compA = o ++ "." then "@" else compA)
                        (if compB = o ++ "." then "@" else compB))
  else if a.rrtype ≠ b.rrtype then
    some (zoneRrtypeLess a.rrtype b.rrtype)
  else if a.rrtype = TypeA then
    match a.to4, b.to4 with
    | some ipa, some ipb => some (bytesCompareLt ipa ipb)
    | _, _ => none
  else if a.rrtype = TypeMX then
    some (decide (a.preference < b.preference))
  else
    some (ltCharList a.line.data b.line.data)

/-- Two records neither of which the comparator puts before the other
(the comparator's incomparability relation). -/
def rrIncomp (o : String) (a b : RR) : Prop :=
  zoneGenDataLess o a b = some false ∧ zoneGenDataLess o b a = some false

/-- Post-condition of Go's `sort.Sort` with `(*zoneGenData).Less`: no element
is strictly below an element placed earlier in the sequence. -/
def sortedByLess (o : String) (l : List RR) : Prop :=
  l.Pairwise (fun x y => zoneGenDataLess o y x ≠ some true)

/-- Modelled from the spec: external collaborator `dnsutil.TrimDomainName`
(miekg/dns), which strips the origin suffix from a name, yields `"@"` for the
apex, and never returns the empty string. -/
def trimDomainName (s origin : String) : String :=
  if s.data = [] then "@"
  else
    let fq := if isFqdn s then s else s ++ "."
    let ofq := if isFqdn origin then origin else origin ++ "."
    if fq = ofq then "@"
    else if ofq ≠ "." ∧ fq ≠ "." ++ ofq ∧
        fq.data.drop (fq.data.length - ("." ++ ofq).data.length) = ("." ++ ofq).data then
      String.mk (fq.data.take (fq.data.length - ("." ++ ofq).data.length))
    else s

/-- Modelled from the spec: external collaborator `dns.TypeToString` (miekg/dns)
restricted to the record types this development exercises; a missing map entry
yields Go's zero value `""`. -/
def typeToString (t : Nat) : String :=
  if t = TypeA then "A"
  else if t = TypeNS then "NS"
  else if t = TypeSOA then "SOA"
  else if t = TypeMX then "MX"
  else if t = 5 then "CNAME"
  else if t = 16 then "TXT"
  else ""

/-- Helper for `splitTabN`: the characters before the first tab, and the
characters after it when a tab exists. -/
def takeUntilTab : List Char → List Char × Option (List Char)
  | [] => ([], none)
  | c :: cs =>
    if c = '\t' then ([], some cs)
    else
      let r := takeUntilTab cs
      (c :: r.1, r.2)

/-- Model of Go's `strings.SplitN(s, "\t", n)` for `n ≥ 1`: at most `n`
pieces, the last piece keeping any remaining tabs. -/
def splitTabN : Nat → List Char → List (List Char)
  | 0, cs => [cs]
  | 1, cs => [cs]
  | n + 2, cs =>
    match takeUntilTab cs with
    | (p, none) => [p]
    | (p, some rest) => p :: splitTabN (n + 1) rest

/-- Loop body of `formatLine` from prettyzone.go: pad to the running column,
append non-empty fields followed by one space, advance the column by the
nominal width plus one. -/
def formatLineAux : List (Nat × String) → Nat → List Char → List Char
  | [], _, result => result
  | (length, item) :: rest, c, result =>
    let padded := result ++ List.replicate (c - result.length) ' '
    let appended := if item = "" then padded else padded ++ item.data ++ [' ']
    formatLineAux rest (c + length + 1) appended

/-- Translation of `formatLine` from prettyzone.go: fixed nominal column
widths, empty fields keep their alignment slot, trailing spaces trimmed.
The Go original indexes `fields` by the positions of `lengths`; it is only
called with lists of equal length, which the `zip` reproduces. -/
def formatLine (lengths : List Nat) (fields : List String) : String :=
  String.mk (((formatLineAux (lengths.zip fields) 0 []).reverse.dropWhile (· = ' ')).reverse)

/-- Display-field derivation for one record in `generateZoneFileHelper`:
`none` models a `log.Fatalf` abort (the Go code's `line[0]` also panics on an
empty canonical line, likewise `none` here); `some (none, prev)` a skipped
comment line; `some (some fields, prev')` the five display fields together
with the updated previous-label state. -/
def recordFields (o : String) (dttl : Nat) (i : Nat) (prev : String) (r : RR) :
    Option (Option (List String) × String) :=
  if r.line.data = [] then none
  else if r.line.data.headD ' ' = ';' then some (none, prev)
  else
    let items := (splitTabN 5 r.line.data).map String.mk
    if items.length < 5 then none
    else
      let nameShort := trimDomainName r.name o
      let name := if 0 < i ∧ nameShort = prev then "" else nameShort
      let ttl := if r.ttl ≠ dttl ∧ r.ttl ≠ 0 then items.getD 1 "" else ""
      if r.cls ≠ ClassINET then none
      else
        some (some [name, ttl, "IN", typeToString r.rrtype, items.getD 4 ""], nameShort)

/-- The render-aborting condition for one record: its canonical line does not
start with the comment marker, and either it has fewer than five tab-separated
fields or its class is not the Internet class.  (An empty line is covered:
its single field count is below five and it has no comment marker.) -/
def fatalRecord (r : RR) : Prop :=
  r.line.data.headD ' ' ≠ ';' ∧
  ((splitTabN 5 r.line.data).length < 5 ∨ r.cls ≠ ClassINET)

/-- One record of the render loop: the formatted output line (when one is
emitted) and the updated previous-label state. -/
def emitRecord (o : String) (dttl : Nat) (i : Nat) (prev : String) (r : RR) :
    Option (Option String × String) :=
  (recordFields o dttl i prev r).map
    (fun fp => (fp.1.map (formatLine [10, 5, 2, 5, 0]), fp.2))

/-- The `for i, rr := range z.Records` loop of `generateZoneFileHelper`,
threading the record index and the `nameShortPrevious` accumulator; `none`
models a fatal abort of the whole render. -/
def emitLoop (o : String) (dttl : Nat) : Nat → String → List RR → Option (List String)
  | _, _, [] => some []
  | i, prev, r :: rs =>
    match emitRecord o dttl i prev r with
    | none => none
    | some (none, prev') => emitLoop o dttl (i + 1) prev' rs
    | some (some line, prev') => (emitLoop o dttl (i + 1) prev' rs).map (line :: ·)

/-- Rendering of an (already sorted) record sequence: the `$TTL` header from
`fmt.Fprintln(w, "$TTL", z.DefaultTtl)` followed by one line per emitted
record.  Go's `sort.Sort` step is modelled by quantifying over
`sortedByLess` permutations of the input at the call sites. -/
def renderSorted (o : String) (dttl : Nat) (l : List RR) : Option String :=
  (emitLoop o dttl 0 "" l).map
    (fun lines => "$TTL " ++ toString dttl ++ "\n" ++ String.join (lines.map (· ++ "\n")))

/-- Model of Go's `error` values: `nil` or some error. -/
inductive GoError
  | nil
  | err (msg : String)
deriving DecidableEq, Repr

/-- Translation of `generateZoneFileHelper` applied to the post-sort record
sequence: on every completed execution it reaches its single `return nil`,
pairing the written text with the returned error value.  `WriteZoneFile`
copies the caller's records and returns this function's result unchanged. -/
def generateZoneFileHelper (o : String) (dttl : Nat) (l : List RR) :
    Option (String × GoError) :=
  (renderSorted o dttl l).map (fun out => (out, GoError.nil))

/-- Concatenation inverse of `splitD`, used to show `splitD` is injective. -/
def joinD : List (List Char) → List Char
  | [] => []
  | [x] => x
  | x :: y :: ys => x ++ '.' :: joinD (y :: ys)

/-- Rank function witnessing that `zoneRrtypeLess` is the strict order
induced by placing SOA below NS below the remaining numeric type codes. -/
def rrtypeKey (t : Nat) : Nat :=
  if t = TypeSOA then 0 else if t = TypeNS then 1 else t + 2


/-- Equality of the derived comparison key `(normalized label, type,
type-specific secondary key)`; on records that never trip the fatal A-record
branch this is exactly the comparator's incomparability relation. -/
def eqKey (o : String) (a b : RR) : Prop :=
  addOrigin a.name (o ++ ".") = addOrigin b.name (o ++ ".") ∧
  a.rrtype = b.rrtype ∧
  ((a.rrtype = TypeA ∧ ∃ ip, a.to4 = some ip ∧ b.to4 = some ip) ∨
   (a.rrtype ≠ TypeA ∧ a.rrtype = TypeMX ∧ a.preference = b.preference) ∨
   (a.rrtype ≠ TypeA ∧ a.rrtype ≠ TypeMX ∧ a.line = b.line))


/-- Concrete records over the origin `example.com` for the closed-instance
theorems below: the zone apex authority and address records, a `www` address,
two MX records, addresses differing only numerically, A records tying on every
comparison key but the TTL, a wildcard and a `!`-labelled sibling, two TXT
records at one label, and a comment-rendered record with a foreign class. -/
def recSOA : RR :=
  ⟨"example.com.", TypeSOA, 300, 1, none, 0,
   "example.com.\t300\tIN\tSOA\tns1.example.com. host.example.com. 1 2 3 4 300"⟩

/-- NS record at the apex of `example.com`. -/
def recNS : RR :=
  ⟨"example.com.", TypeNS, 300, 1, none, 0, "example.com.\t300\tIN\tNS\tns1.example.com."⟩

/-- A record at the apex of `example.com`. -/
def recA : RR :=
  ⟨"example.com.", TypeA, 300, 1, some [1, 2, 3, 4], 0, "example.com.\t300\tIN\tA\t1.2.3.4"⟩

/-- A record at `www.example.com.`. -/
def recAwww : RR :=
  ⟨"www.example.com.", TypeA, 300, 1, some [1, 2, 3, 5], 0,
   "www.example.com.\t300\tIN\tA\t1.2.3.5"⟩

/-- A record with address `10.0.0.2`. -/
def recA2 : RR :=
  ⟨"h.example.com.", TypeA, 300, 1, some [10, 0, 0, 2], 0,
   "h.example.com.\t300\tIN\tA\t10.0.0.2"⟩

/-- A record with address `10.0.0.10` at the same label as `recA2`. -/
def recA10 : RR :=
  ⟨"h.example.com.", TypeA, 300, 1, some [10, 0, 0, 10], 0,
   "h.example.com.\t300\tIN\tA\t10.0.0.10"⟩

/-- MX record with preference 10. -/
def recMX10 : RR :=
  ⟨"example.com.", TypeMX, 300, 1, none, 10, "example.com.\t300\tIN\tMX\t10 mail.example.com."⟩

/-- MX record with preference 20 at the same label as `recMX10`. -/
def recMX20 : RR :=
  ⟨"example.com.", TypeMX, 300, 1, none, 20, "example.com.\t300\tIN\tMX\t20 mail2.example.com."⟩

/-- A record at `x.example.com.` with TTL 100; ties with `recT200` on label,
type and address, differing only in TTL and rendered line. -/
def recT100 : RR :=
  ⟨"x.example.com.", TypeA, 100, 1, some [1, 2, 3, 4], 0, "x.example.com.\t100\tIN\tA\t1.2.3.4"⟩

/-- A record identical to `recT100` except for its TTL of 200. -/
def recT200 : RR :=
  ⟨"x.example.com.", TypeA, 200, 1, some [1, 2, 3, 4], 0, "x.example.com.\t200\tIN\tA\t1.2.3.4"⟩

/-- Wildcard record at `*.example.com.`. -/
def recWild : RR :=
  ⟨"*.example.com.", TypeA, 300, 1, some [1, 2, 3, 4], 0, "*.example.com.\t300\tIN\tA\t1.2.3.4"⟩

/-- Record at `!.example.com.`, a label that is neither the apex nor the
wildcard; `'!'` precedes `'*'` in byte order. -/
def recBang : RR :=
  ⟨"!.example.com.", TypeA, 300, 1, some [1, 2, 3, 4], 0, "!.example.com.\t300\tIN\tA\t1.2.3.4"⟩

/-- Record at `a.*.example.com.`: its outermost relative label component is
`*` itself, exercising the shorter-suffix case of the wildcard ordering. -/
def recAStar : RR :=
  ⟨"a.*.example.com.", TypeA, 300, 1, some [1, 2, 3, 4], 0,
   "a.*.example.com.\t300\tIN\tA\t1.2.3.4"⟩

/-- TXT record at `t.example.com.` with payload `"a"`. -/
def recTXTa : RR :=
  ⟨"t.example.com.", 16, 300, 1, none, 0, "t.example.com.\t300\tIN\tTXT\t\"a\""⟩

/-- TXT record at `t.example.com.` with payload `"b"`. -/
def recTXTb : RR :=
  ⟨"t.example.com.", 16, 300, 1, none, 0, "t.example.com.\t300\tIN\tTXT\t\"b\""⟩

/-- Record whose canonical line is a comment and whose class is CHAOS (3),
with fewer than five tab-separated fields. -/
def recCmtBad : RR :=
  ⟨"x.example.com.", 16, 300, 3, none, 0, ";this line is skipped"⟩


section LexLtLemmas

variable {α : Type} [DecidableEq α] {lt : α → α → Bool}

theorem lexLt_irrefl (h : ∀ a, lt a a = false) : ∀ l, lexLt lt l l = false := by
  intro l
  induction l with
  | nil => rfl
  | cons a as ih => simp [lexLt, ih, h]

theorem lexLt_asymm (h : ∀ a b, lt a b = true → lt b a = false) :
    ∀ l1 l2, lexLt lt l1 l2 = true → lexLt lt l2 l1 = false := by
  intro l1
  induction l1 with
  | nil =>
    intro l2 _
    cases l2 with
    | nil => rfl
    | cons b bs => rfl
  | cons a as ih =>
    intro l2 h12
    cases l2 with
    | nil => simp [lexLt] at h12
    | cons b bs =>
      by_cases hab : a = b
      · subst hab
        simp only [lexLt, if_pos rfl] at h12 ⊢
        exact ih bs h12
      · simp only [lexLt, if_neg hab] at h12
        simp only [lexLt, if_neg (fun hba : b = a => hab hba.symm)]
        exact h a b h12

theorem lexLt_trans (ha : ∀ a b, lt a b = true → lt b a = false)
    (ht : ∀ a b c, lt a b = true → lt b c = true → lt a c = true) :
    ∀ l1 l2 l3, lexLt lt l1 l2 = true → lexLt lt l2 l3 = true → lexLt lt l1 l3 = true := by
  intro l1
  induction l1 with
  | nil =>
    intro l2 l3 h12 h23
    cases l2 with
    | nil => cases l3 <;> simp [lexLt] at h23 ⊢
    | cons b bs =>
      cases l3 with
      | nil => simp [lexLt] at h23
      | cons c cs => rfl
  | cons a as ih =>
    intro l2 l3 h12 h23
    cases l2 with
    | nil => simp [lexLt] at h12
    | cons b bs =>
      cases l3 with
      | nil => simp [lexLt] at h23
      | cons c cs =>
        by_cases hab : a = b <;> by_cases hbc : b = c
        · subst hab; subst hbc
          simp only [lexLt, if_pos rfl] at h12 h23 ⊢
          exact ih bs cs h12 h23
        · subst hab
          simp only [lexLt, if_pos rfl, if_neg hbc] at h12 h23 ⊢
          exact h23
        · subst hbc
          simp only [lexLt, if_pos rfl, if_neg hab] at h12 h23 ⊢
          exact h12
        · simp only [lexLt, if_neg hab, if_neg hbc] at h12 h23
          have hac : a ≠ c := by
            intro h
            subst h
            have := ha a b h12
            rw [this] at h23
            exact Bool.false_ne_true h23
          simp only [lexLt, if_neg hac]
          exact ht a b c h12 h23

theorem lexLt_total (h : ∀ a b, a ≠ b → lt a b = true ∨ lt b a = true) :
    ∀ l1 l2, l1 ≠ l2 → lexLt lt l1 l2 = true ∨ lexLt lt l2 l1 = true := by
  intro l1
  induction l1 with
  | nil =>
    intro l2 hne
    cases l2 with
    | nil => exact absurd rfl hne
    | cons b bs => exact Or.inl rfl
  | cons a as ih =>
    intro l2 hne
    cases l2 with
    | nil => exact Or.inr rfl
    | cons b bs =>
      by_cases hab : a = b
      · subst hab
        have hne' : as ≠ bs := fun h => hne (by rw [h])
        simpa only [lexLt, if_pos rfl] using ih bs hne'
      · simp only [lexLt, if_neg hab, if_neg (fun hba : b = a => hab hba.symm)]
        exact h a b hab

end LexLtLemmas

theorem ltCharList_irrefl (l : List Char) : ltCharList l l = false :=
  lexLt_irrefl (fun a => by simp) l

theorem ltCharList_asymm {l1 l2 : List Char} (h : ltCharList l1 l2 = true) :
    ltCharList l2 l1 = false :=
  lexLt_asymm (fun a b hab => by
    simp only [decide_eq_true_eq] at hab
    simpa using le_of_lt hab) l1 l2 h

theorem ltCharList_trans {l1 l2 l3 : List Char} (h12 : ltCharList l1 l2 = true)
    (h23 : ltCharList l2 l3 = true) : ltCharList l1 l3 = true :=
  lexLt_trans
    (fun a b hab => by
      simp only [decide_eq_true_eq] at hab
      simpa using le_of_lt hab)
    (fun a b c hab hbc => by
      simp only [decide_eq_true_eq] at hab hbc ⊢
      exact lt_trans hab hbc) l1 l2 l3 h12 h23

theorem ltCharList_total {l1 l2 : List Char} (h : l1 ≠ l2) :
    ltCharList l1 l2 = true ∨ ltCharList l2 l1 = true :=
  lexLt_total (fun a b hab => by
    rcases lt_or_gt_of_ne hab with h' | h'
    · exact Or.inl (by simpa using h')
    · exact Or.inr (by simpa using h')) l1 l2 h

theorem bytesCompareLt_irrefl (l : List Nat) : bytesCompareLt l l = false :=
  lexLt_irrefl (fun a => by simp) l

theorem bytesCompareLt_asymm {l1 l2 : List Nat} (h : bytesCompareLt l1 l2 = true) :
    bytesCompareLt l2 l1 = false :=
  lexLt_asymm (fun a b hab => by
    simp only [decide_eq_true_eq] at hab
    simpa using le_of_lt hab) l1 l2 h

theorem bytesCompareLt_trans {l1 l2 l3 : List Nat} (h12 : bytesCompareLt l1 l2 = true)
    (h23 : bytesCompareLt l2 l3 = true) : bytesCompareLt l1 l3 = true :=
  lexLt_trans
    (fun a b hab => by
      simp only [decide_eq_true_eq] at hab
      simpa using le_of_lt hab)
    (fun a b c hab hbc => by
      simp only [decide_eq_true_eq] at hab hbc ⊢
      exact lt_trans hab hbc) l1 l2 l3 h12 h23

theorem bytesCompareLt_total {l1 l2 : List Nat} (h : l1 ≠ l2) :
    bytesCompareLt l1 l2 = true ∨ bytesCompareLt l2 l1 = true :=
  lexLt_total (fun a b hab => by
    rcases lt_or_gt_of_ne hab with h' | h'
    · exact Or.inl (by simpa using h')
    · exact Or.inr (by simpa using h')) l1 l2 h

theorem revLess_irrefl (l : List (List Char)) : revLess l l = false :=
  lexLt_irrefl ltCharList_irrefl l

theorem revLess_asymm {l1 l2 : List (List Char)} (h : revLess l1 l2 = true) :
    revLess l2 l1 = false :=
  lexLt_asymm (fun a b (h' : ltCharList a b = true) => ltCharList_asymm h') l1 l2 h

theorem revLess_trans {l1 l2 l3 : List (List Char)} (h12 : revLess l1 l2 = true)
    (h23 : revLess l2 l3 = true) : revLess l1 l3 = true :=
  lexLt_trans (fun a b (h : ltCharList a b = true) => ltCharList_asymm h)
    (fun a b c (h : ltCharList a b = true) (h' : ltCharList b c = true) =>
      ltCharList_trans h h') l1 l2 l3 h12 h23

theorem revLess_total {l1 l2 : List (List Char)} (h : l1 ≠ l2) :
    revLess l1 l2 = true ∨ revLess l2 l1 = true :=
  lexLt_total (fun a b (h' : a ≠ b) =>
    (ltCharList_total h' : ltCharList a b = true ∨ ltCharList b a = true)) l1 l2 h

theorem splitD_ne_nil (acc : List Char) (cs : List Char) : splitD acc cs ≠ [] := by
  induction cs generalizing acc with
  | nil => simp [splitD]
  | cons c cs ih =>
    by_cases hc : c = '.'
    · simp [splitD, hc]
    · simpa [splitD, hc] using ih (c :: acc)

theorem joinD_splitD (cs acc : List Char) : joinD (splitD acc cs) = acc.reverse ++ cs := by
  induction cs generalizing acc with
  | nil => simp [splitD, joinD]
  | cons c cs ih =>
    by_cases hc : c = '.'
    · subst hc
      have hne := splitD_ne_nil ([] : List Char) cs
      cases hsp : splitD [] cs with
      | nil => exact absurd hsp hne
      | cons x xs =>
        simp only [splitD, if_pos rfl, hsp, joinD]
        rw [← hsp, ih]
        simp
    · simp only [splitD, if_neg hc]
      rw [ih]
      simp

theorem splitD_inj {a b : List Char} (h : splitD [] a = splitD [] b) : a = b := by
  have ha := joinD_splitD a ([] : List Char)
  have hb := joinD_splitD b ([] : List Char)
  simp only [List.reverse_nil, List.nil_append] at ha hb
  rw [← ha, ← hb, h]

theorem zoneLabelLess_irrefl (a : String) : zoneLabelLess a a = false := by
  simp [zoneLabelLess]

theorem zoneLabelLess_ne {a b : String} (h : zoneLabelLess a b = true) : a ≠ b := by
  intro hab
  rw [hab, zoneLabelLess_irrefl] at h
  exact Bool.false_ne_true h

theorem zoneLabelLess_asymm {a b : String} (h : zoneLabelLess a b = true) :
    zoneLabelLess b a = false := by
  have hab : a ≠ b := zoneLabelLess_ne h
  have hba : b ≠ a := fun h' => hab h'.symm
  unfold zoneLabelLess at h ⊢
  rw [if_neg hab] at h
  rw [if_neg hba]
  by_cases ha9 : a = "@"
  · rw [if_neg (fun hb9 : b = "@" => hab (ha9.trans hb9.symm)), if_pos ha9]
  · rw [if_neg ha9] at h
    by_cases hb9 : b = "@"
    · rw [if_pos hb9] at h
      exact absurd h Bool.false_ne_true
    · rw [if_neg hb9] at h
      rw [if_neg hb9, if_neg ha9]
      by_cases ha8 : a = "*"
      · rw [if_neg (fun hb8 : b = "*" => hab (ha8.trans hb8.symm)), if_pos ha8]
      · rw [if_neg ha8] at h
        by_cases hb8 : b = "*"
        · rw [if_pos hb8] at h
          exact absurd h Bool.false_ne_true
        · rw [if_neg hb8] at h
          rw [if_neg hb8, if_neg ha8]
          exact revLess_asymm h

theorem zoneLabelLess_trans {a b c : String} (h1 : zoneLabelLess a b = true)
    (h2 : zoneLabelLess b c = true) : zoneLabelLess a c = true := by
  have hab : a ≠ b := zoneLabelLess_ne h1
  have hbc : b ≠ c := zoneLabelLess_ne h2
  have hac : a ≠ c := by
    intro h
    subst h
    rw [zoneLabelLess_asymm h1] at h2
    exact Bool.false_ne_true h2
  unfold zoneLabelLess at h1 h2 ⊢
  rw [if_neg hab] at h1
  rw [if_neg hbc] at h2
  rw [if_neg hac]
  by_cases ha9 : a = "@"
  · rw [if_pos ha9]
  · rw [if_neg ha9] at h1 ⊢
    by_cases hb9 : b = "@"
    · rw [if_pos hb9] at h1
      exact absurd h1 Bool.false_ne_true
    · rw [if_neg hb9] at h1
      rw [if_neg hb9] at h2
      by_cases hc9 : c = "@"
      · rw [if_pos hc9] at h2
        exact absurd h2 Bool.false_ne_true
      · rw [if_neg hc9] at h2 ⊢
        by_cases ha8 : a = "*"
        · rw [if_pos ha8]
        · rw [if_neg ha8] at h1 ⊢
          by_cases hb8 : b = "*"
          · rw [if_pos hb8] at h1
            exact absurd h1 Bool.false_ne_true
          · rw [if_neg hb8] at h1
            rw [if_neg hb8] at h2
            by_cases hc8 : c = "*"
            · rw [if_pos hc8] at h2
              exact absurd h2 Bool.false_ne_true
            · rw [if_neg hc8] at h2 ⊢
              exact revLess_trans h1 h2

theorem zoneLabelLess_total {a b : String} (h : a ≠ b) :
    zoneLabelLess a b = true ∨ zoneLabelLess b a = true := by
  have hba : b ≠ a := fun h' => h h'.symm
  by_cases ha9 : a = "@"
  · exact Or.inl (by unfold zoneLabelLess; rw [if_neg h, if_pos ha9])
  · by_cases hb9 : b = "@"
    · exact Or.inr (by unfold zoneLabelLess; rw [if_neg hba, if_pos hb9])
    · by_cases ha8 : a = "*"
      · exact Or.inl (by
          unfold zoneLabelLess
          rw [if_neg h, if_neg ha9, if_neg hb9, if_pos ha8])
      · by_cases hb8 : b = "*"
        · exact Or.inr (by
            unfold zoneLabelLess
            rw [if_neg hba, if_neg hb9, if_neg ha9, if_pos hb8])
        · have hsp : (splitD [] a.data).reverse ≠ (splitD [] b.data).reverse := by
            intro h'
            apply h
            apply String.ext
            exact splitD_inj (List.reverse_injective h')
          rcases revLess_total hsp with h' | h'
          · exact Or.inl (by
              unfold zoneLabelLess
              rw [if_neg h, if_neg ha9, if_neg hb9, if_neg ha8, if_neg hb8]
              exact h')
          · exact Or.inr (by
              unfold zoneLabelLess
              rw [if_neg hba, if_neg hb9, if_neg ha9, if_neg hb8, if_neg ha8]
              exact h')

theorem rrtypeKey_inj {a b : Nat} (h : rrtypeKey a = rrtypeKey b) : a = b := by
  unfold rrtypeKey TypeSOA TypeNS at h
  split_ifs at h <;> omega

theorem zoneRrtypeLess_eq_key (a b : Nat) :
    zoneRrtypeLess a b = decide (rrtypeKey a < rrtypeKey b) := by
  unfold zoneRrtypeLess rrtypeKey TypeSOA TypeNS
  split_ifs <;> simp_all <;> omega

theorem zoneRrtypeLess_irrefl (a : Nat) : zoneRrtypeLess a a = false := by
  simp [zoneRrtypeLess]

theorem zoneRrtypeLess_asymm {a b : Nat} (h : zoneRrtypeLess a b = true) :
    zoneRrtypeLess b a = false := by
  rw [zoneRrtypeLess_eq_key] at h ⊢
  simp only [decide_eq_true_eq] at h
  simp
  omega

theorem zoneRrtypeLess_trans {a b c : Nat} (h1 : zoneRrtypeLess a b = true)
    (h2 : zoneRrtypeLess b c = true) : zoneRrtypeLess a c = true := by
  rw [zoneRrtypeLess_eq_key] at h1 h2 ⊢
  simp only [decide_eq_true_eq] at h1 h2 ⊢
  omega

theorem zoneRrtypeLess_total {a b : Nat} (h : a ≠ b) :
    zoneRrtypeLess a b = true ∨ zoneRrtypeLess b a = true := by
  rw [zoneRrtypeLess_eq_key, zoneRrtypeLess_eq_key]
  simp only [decide_eq_true_eq]
  have : rrtypeKey a ≠ rrtypeKey b := fun h' => h (rrtypeKey_inj h')
  omega

theorem append_dot_ne_at (o : String) : o ++ "." ≠ "@" := by
  obtain ⟨l⟩ := o
  intro h
  have h' : (String.mk l ++ ".").data = "@".data := by rw [h]
  rw [String.data_append] at h'
  have h2 : l ++ ['.'] = ['@'] := h'
  rcases l with _ | ⟨c, cs⟩ <;> simp at h2

theorem addOrigin_ne_at (s o : String) : addOrigin s (o ++ ".") ≠ "@" := by
  unfold addOrigin
  split_ifs with h1 h2 h3 h4 h5
  · exact append_dot_ne_at o
  · exact append_dot_ne_at o
  · exact append_dot_ne_at o
  · intro h
    subst h
    simp [isFqdn] at h4
  · intro h
    have h' : (o ++ ".").data = [] := h5
    rw [String.data_append] at h'
    simp at h'
  · intro h
    have h' : (s ++ "." ++ (o ++ ".")).data = "@".data := by rw [h]
    rw [String.data_append, String.data_append] at h'
    have hlen := congrArg List.length h'
    simp at hlen
    omega

theorem subst_eq_iff {o : String} (na nb : String) :
    ((if addOrigin na (o ++ ".") = o ++ "." then "@" else addOrigin na (o ++ ".")) =
     (if addOrigin nb (o ++ ".") = o ++ "." then "@" else addOrigin nb (o ++ "."))) ↔
    addOrigin na (o ++ ".") = addOrigin nb (o ++ ".") := by
  by_cases h1 : addOrigin na (o ++ ".") = o ++ "." <;>
    by_cases h2 : addOrigin nb (o ++ ".") = o ++ "."
  · rw [if_pos h1, if_pos h2, h1, h2]
    simp
  · rw [if_pos h1, if_neg h2]
    constructor
    · intro h
      exact absurd h.symm (addOrigin_ne_at nb o)
    · intro h
      rw [← h] at h2
      exact absurd h1 h2
  · rw [if_neg h1, if_pos h2]
    constructor
    · intro h
      exact absurd h (addOrigin_ne_at na o)
    · intro h
      rw [h] at h1
      exact absurd h2 h1
  · rw [if_neg h1, if_neg h2]

theorem zoneGenDataLess_irrefl (o : String) (a : RR) : zoneGenDataLess o a a ≠ some true := by
  simp only [zoneGenDataLess]
  rw [if_neg (not_not_intro rfl), if_neg (not_not_intro rfl)]
  by_cases hA : a.rrtype = TypeA
  · rw [if_pos hA]
    cases h4 : a.to4 with
    | none => simp
    | some ip => simp [bytesCompareLt_irrefl]
  · rw [if_neg hA]
    by_cases hM : a.rrtype = TypeMX
    · rw [if_pos hM]
      simp
    · rw [if_neg hM]
      simp [ltCharList_irrefl]

theorem zoneGenDataLess_asymm {o : String} {a b : RR}
    (h : zoneGenDataLess o a b = some true) : zoneGenDataLess o b a = some false := by
  simp only [zoneGenDataLess] at h ⊢
  by_cases hC : addOrigin a.name (o ++ ".") = addOrigin b.name (o ++ ".")
  · rw [if_neg (not_not_intro hC)] at h
    rw [if_neg (not_not_intro hC.symm)]
    by_cases hT : a.rrtype = b.rrtype
    · rw [if_neg (not_not_intro hT)] at h
      rw [if_neg (not_not_intro hT.symm), ← hT]
      by_cases hA : a.rrtype = TypeA
      · rw [if_pos hA] at h ⊢
        cases h4a : a.to4 with
        | none =>
          rw [h4a] at h
          cases h4b : b.to4 <;> rw [h4b] at h <;> simp at h
        | some ipa =>
          rw [h4a] at h
          cases h4b : b.to4 with
          | none =>
            rw [h4b] at h
            simp at h
          | some ipb =>
            rw [h4b] at h
            simp only [Option.some.injEq] at h ⊢
            exact bytesCompareLt_asymm h
      · rw [if_neg hA] at h ⊢
        by_cases hM : a.rrtype = TypeMX
        · rw [if_pos hM] at h ⊢
          simp only [Option.some.injEq, decide_eq_true_eq] at h
          simp
          omega
        · rw [if_neg hM] at h ⊢
          simp only [Option.some.injEq] at h ⊢
          exact ltCharList_asymm h
    · rw [if_pos hT] at h
      rw [if_pos (fun h' : b.rrtype = a.rrtype => hT h'.symm)]
      simp only [Option.some.injEq] at h ⊢
      exact zoneRrtypeLess_asymm h
  · rw [if_pos hC] at h
    rw [if_pos (fun h' : addOrigin b.name (o ++ ".") = addOrigin a.name (o ++ ".") => hC h'.symm)]
    simp only [Option.some.injEq] at h ⊢
    exact zoneLabelLess_asymm h

theorem zoneGenDataLess_trans {o : String} {a b c : RR}
    (h1 : zoneGenDataLess o a b = some true) (h2 : zoneGenDataLess o b c = some true) :
    zoneGenDataLess o a c = some true := by
  simp only [zoneGenDataLess] at h1 h2 ⊢
  by_cases hAB : addOrigin a.name (o ++ ".") = addOrigin b.name (o ++ ".") <;>
    by_cases hBC : addOrigin b.name (o ++ ".") = addOrigin c.name (o ++ ".")
  · -- labels of a, b, c all agree
    have hAC : addOrigin a.name (o ++ ".") = addOrigin c.name (o ++ ".") := hAB.trans hBC
    rw [if_neg (not_not_intro hAB)] at h1
    rw [if_neg (not_not_intro hBC)] at h2
    rw [if_neg (not_not_intro hAC)]
    by_cases hT1 : a.rrtype = b.rrtype <;> by_cases hT2 : b.rrtype = c.rrtype
    · have hTAC : a.rrtype = c.rrtype := hT1.trans hT2
      rw [if_neg (not_not_intro hT1)] at h1
      rw [if_neg (not_not_intro hT2)] at h2
      rw [if_neg (not_not_intro hTAC)]
      by_cases hA : a.rrtype = TypeA
      · rw [if_pos hA] at h1 ⊢
        rw [if_pos (hT1 ▸ hA)] at h2
        cases h4a : a.to4 with
        | none =>
          rw [h4a] at h1
          cases h4b : b.to4 <;> rw [h4b] at h1 <;> simp at h1
        | some ipa =>
          rw [h4a] at h1
          cases h4b : b.to4 with
          | none =>
            rw [h4b] at h1
            simp at h1
          | some ipb =>
            rw [h4b] at h1 h2
            cases h4c : c.to4 with
            | none =>
              rw [h4c] at h2
              simp at h2
            | some ipc =>
              rw [h4c] at h2
              simp only [Option.some.injEq] at h1 h2 ⊢
              exact bytesCompareLt_trans h1 h2
      · rw [if_neg hA] at h1 ⊢
        rw [if_neg (hT1 ▸ hA)] at h2
        by_cases hM : a.rrtype = TypeMX
        · rw [if_pos hM] at h1 ⊢
          rw [if_pos (hT1 ▸ hM)] at h2
          simp only [Option.some.injEq, decide_eq_true_eq] at h1 h2 ⊢
          omega
        · rw [if_neg hM] at h1 ⊢
          rw [if_neg (hT1 ▸ hM)] at h2
          simp only [Option.some.injEq] at h1 h2 ⊢
          exact ltCharList_trans h1 h2
    · have hTAC : a.rrtype ≠ c.rrtype := fun h => hT2 (hT1.symm.trans h)
      rw [if_pos hT2] at h2
      rw [if_pos hTAC, hT1]
      exact h2
    · have hTAC : a.rrtype ≠ c.rrtype := fun h => hT1 (h.trans hT2.symm)
      rw [if_pos hT1] at h1
      rw [if_pos hTAC, ← hT2]
      exact h1
    · rw [if_pos hT1] at h1
      rw [if_pos hT2] at h2
      simp only [Option.some.injEq] at h1 h2
      have hTAC : a.rrtype ≠ c.rrtype := by
        intro h
        rw [h] at h1
        rw [zoneRrtypeLess_asymm h2] at h1
        exact Bool.false_ne_true h1
      rw [if_pos hTAC]
      simp only [Option.some.injEq]
      exact zoneRrtypeLess_trans h1 h2
  · -- a, b share a label, c differs
    have hAC : ¬addOrigin a.name (o ++ ".") = addOrigin c.name (o ++ ".") :=
      fun h => hBC (hAB.symm.trans h)
    rw [if_pos hBC] at h2
    rw [if_pos hAC, hAB]
    exact h2
  · -- b, c share a label, a differs
    have hAC : ¬addOrigin a.name (o ++ ".") = addOrigin c.name (o ++ ".") :=
      fun h => hAB (h.trans hBC.symm)
    rw [if_pos hAB] at h1
    rw [if_pos hAC, ← hBC]
    exact h1
  · -- all three labels differ pairwise
    rw [if_pos hAB] at h1
    rw [if_pos hBC] at h2
    simp only [Option.some.injEq] at h1 h2
    have hAC : ¬addOrigin a.name (o ++ ".") = addOrigin c.name (o ++ ".") := by
      intro h
      rw [h] at h1
      rw [zoneLabelLess_asymm h2] at h1
      exact Bool.false_ne_true h1
    rw [if_pos hAC]
    simp only [Option.some.injEq]
    exact zoneLabelLess_trans h1 h2

theorem rrIncomp_iff {o : String} {a b : RR} : rrIncomp o a b ↔ eqKey o a b := by
  constructor
  · rintro ⟨h1, h2⟩
    simp only [zoneGenDataLess] at h1 h2
    by_cases hC : addOrigin a.name (o ++ ".") = addOrigin b.name (o ++ ".")
    · rw [if_neg (not_not_intro hC)] at h1
      rw [if_neg (not_not_intro hC.symm)] at h2
      by_cases hT : a.rrtype = b.rrtype
      · rw [if_neg (not_not_intro hT)] at h1
        rw [if_neg (not_not_intro hT.symm)] at h2
        refine ⟨hC, hT, ?_⟩
        by_cases hA : a.rrtype = TypeA
        · rw [if_pos hA] at h1
          rw [if_pos (hT ▸ hA)] at h2
          cases h4a : a.to4 with
          | none =>
            rw [h4a] at h1
            cases h4b : b.to4 <;> rw [h4b] at h1 <;> simp at h1
          | some ipa =>
            rw [h4a] at h1 h2
            cases h4b : b.to4 with
            | none =>
              rw [h4b] at h1
              simp at h1
            | some ipb =>
              rw [h4b] at h1 h2
              simp only [Option.some.injEq] at h1 h2
              have hip : ipa = ipb := by
                by_contra hne
                rcases bytesCompareLt_total hne with h' | h'
                · rw [h'] at h1
                  exact absurd h1 (by simp)
                · rw [h'] at h2
                  exact absurd h2 (by simp)
              exact Or.inl ⟨hA, ipa, rfl, by rw [hip]⟩
        · rw [if_neg hA] at h1
          rw [if_neg (hT ▸ hA)] at h2
          by_cases hM : a.rrtype = TypeMX
          · rw [if_pos hM] at h1
            rw [if_pos (hT ▸ hM)] at h2
            simp only [Option.some.injEq, decide_eq_false_iff_not] at h1 h2
            exact Or.inr (Or.inl ⟨hA, hM, by omega⟩)
          · rw [if_neg hM] at h1
            rw [if_neg (hT ▸ hM)] at h2
            simp only [Option.some.injEq] at h1 h2
            have hl : a.line = b.line := by
              by_contra hne
              have hne' : a.line.data ≠ b.line.data :=
                fun h => hne (String.ext h)
              rcases ltCharList_total hne' with h' | h'
              · rw [h'] at h1
                exact absurd h1 (by simp)
              · rw [h'] at h2
                exact absurd h2 (by simp)
            exact Or.inr (Or.inr ⟨hA, hM, hl⟩)
      · rw [if_pos hT] at h1
        simp only [Option.some.injEq] at h1
        rw [if_pos (fun h : b.rrtype = a.rrtype => hT h.symm)] at h2
        simp only [Option.some.injEq] at h2
        rcases zoneRrtypeLess_total hT with h' | h'
        · rw [h'] at h1
          exact absurd h1 (by simp)
        · rw [h'] at h2
          exact absurd h2 (by simp)
    · rw [if_pos hC] at h1
      rw [if_pos (fun h : addOrigin b.name (o ++ ".") = addOrigin a.name (o ++ ".") => hC h.symm)] at h2
      simp only [Option.some.injEq] at h1 h2
      have hsub : (if addOrigin a.name (o ++ ".") = o ++ "." then "@" else addOrigin a.name (o ++ ".")) ≠
          (if addOrigin b.name (o ++ ".") = o ++ "." then "@" else addOrigin b.name (o ++ ".")) :=
        fun h => hC ((subst_eq_iff a.name b.name).mp h)
      rcases zoneLabelLess_total hsub with h' | h'
      · rw [h'] at h1
        exact absurd h1 (by simp)
      · rw [h'] at h2
        exact absurd h2 (by simp)
  · rintro ⟨hC, hT, hpay⟩
    constructor
    · simp only [zoneGenDataLess]
      rw [if_neg (not_not_intro hC), if_neg (not_not_intro hT)]
      rcases hpay with ⟨hA, ip, h4a, h4b⟩ | ⟨hA, hM, hp⟩ | ⟨hA, hM, hl⟩
      · rw [if_pos hA, h4a, h4b]
        simp [bytesCompareLt_irrefl]
      · rw [if_neg hA, if_pos hM, hp]
        simp
      · rw [if_neg hA, if_neg hM, hl]
        simp [ltCharList_irrefl]
    · simp only [zoneGenDataLess]
      rw [if_neg (not_not_intro hC.symm), if_neg (not_not_intro hT.symm)]
      rcases hpay with ⟨hA, ip, h4a, h4b⟩ | ⟨hA, hM, hp⟩ | ⟨hA, hM, hl⟩
      · rw [if_pos (hT ▸ hA), h4b, h4a]
        simp [bytesCompareLt_irrefl]
      · rw [if_neg (hT ▸ hA), if_pos (hT ▸ hM), hp]
        simp
      · rw [if_neg (hT ▸ hA), if_neg (hT ▸ hM), hl]
        simp [ltCharList_irrefl]

theorem eqKey_trans {o : String} {a b c : RR} (h1 : eqKey o a b) (h2 : eqKey o b c) :
    eqKey o a c := by
  obtain ⟨hC1, hT1, hp1⟩ := h1
  obtain ⟨hC2, hT2, hp2⟩ := h2
  refine ⟨hC1.trans hC2, hT1.trans hT2, ?_⟩
  rcases hp1 with ⟨hA, ip, h4a, h4b⟩ | ⟨hA, hM, hp⟩ | ⟨hA, hM, hl⟩
  · rcases hp2 with ⟨hA', ip', h4b', h4c⟩ | ⟨hA', hM', hp'⟩ | ⟨hA', hM', hl'⟩
    · have hip : ip = ip' := by
        rw [h4b] at h4b'
        exact Option.some.inj h4b'
      exact Or.inl ⟨hA, ip, h4a, hip ▸ h4c⟩
    · exact absurd (hT1 ▸ hA) hA'
    · exact absurd (hT1 ▸ hA) hA'
  · rcases hp2 with ⟨hA', ip', h4b', h4c⟩ | ⟨hA', hM', hp'⟩ | ⟨hA', hM', hl'⟩
    · exact absurd hA' (hT1 ▸ hA)
    · exact Or.inr (Or.inl ⟨hA, hM, hp.trans hp'⟩)
    · exact absurd (hT1 ▸ hM) hM'
  · rcases hp2 with ⟨hA', ip', h4b', h4c⟩ | ⟨hA', hM', hp'⟩ | ⟨hA', hM', hl'⟩
    · exact absurd hA' (hT1 ▸ hA)
    · exact absurd hM' (hT1 ▸ hM)
    · exact Or.inr (Or.inr ⟨hA, hM, hl.trans hl'⟩)

theorem rrIncomp_trans {o : String} {a b c : RR} (h1 : rrIncomp o a b)
    (h2 : rrIncomp o b c) : rrIncomp o a c :=
  rrIncomp_iff.mpr (eqKey_trans (rrIncomp_iff.mp h1) (rrIncomp_iff.mp h2))

theorem eq_of_perm_of_pairwise {α : Type} {S : α → α → Prop} :
    ∀ (l1 l2 : List α), l1.Perm l2 → l1.Pairwise S → l2.Pairwise S →
      (∀ x ∈ l1, ∀ y ∈ l1, S x y → S y x → x = y) → l1 = l2 := by
  intro l1
  induction l1 with
  | nil =>
    intro l2 hp _ _ _
    have : l2 = [] := (List.perm_nil.mp hp.symm)
    rw [this]
  | cons a t1 ih =>
    intro l2 hp hs1 hs2 hanti
    cases l2 with
    | nil => exact absurd hp.symm (by simp)
    | cons b t2 =>
      have hab : a = b := by
        by_contra hne
        have ha2 : a ∈ b :: t2 := hp.mem_iff.mp (List.mem_cons_self a t1)
        have hb1 : b ∈ a :: t1 := hp.symm.mem_iff.mp (List.mem_cons_self b t2)
        have hat2 : a ∈ t2 := by
          rcases List.mem_cons.mp ha2 with h | h
          · exact absurd h hne
          · exact h
        have hbt1 : b ∈ t1 := by
          rcases List.mem_cons.mp hb1 with h | h
          · exact absurd h.symm hne
          · exact h
        have hSab : S a b := (List.pairwise_cons.mp hs1).1 b hbt1
        have hSba : S b a := (List.pairwise_cons.mp hs2).1 a hat2
        exact hne (hanti a (List.mem_cons_self a t1) b (List.mem_cons_of_mem a hbt1) hSab hSba)
      subst hab
      have hp' : t1.Perm t2 := hp.cons_inv
      have ht : t1 = t2 :=
        ih t2 hp' (List.pairwise_cons.mp hs1).2 (List.pairwise_cons.mp hs2).2
          (fun x hx y hy hxy hyx =>
            hanti x (List.mem_cons_of_mem a hx) y (List.mem_cons_of_mem a hy) hxy hyx)
      rw [ht]

/-- C1: for every origin and records a, b, c, the comparator is a strict weak
ordering: `compare(a,a)` is never less; if `compare(a,b)` is less then
`compare(b,a)` is not less (it reports greater); the less relation is
transitive; and the induced incomparability relation is transitive. -/
theorem C1_comparator_strict_weak_order (o : String) (a b c : RR) :
    zoneGenDataLess o a a ≠ some true ∧
    (zoneGenDataLess o a b = some true → zoneGenDataLess o b a = some false) ∧
    (zoneGenDataLess o a b = some true → zoneGenDataLess o b c = some true →
      zoneGenDataLess o a c = some true) ∧
    (rrIncomp o a b → rrIncomp o b c → rrIncomp o a c) :=
  ⟨zoneGenDataLess_irrefl o a, fun h => zoneGenDataLess_asymm h,
   fun h1 h2 => zoneGenDataLess_trans h1 h2, fun h1 h2 => rrIncomp_trans h1 h2⟩

/-- Closed instance of C1 at concrete records. -/
theorem C1_comparator_strict_weak_order_witness :
    zoneGenDataLess "example.com" recNS recSOA = some false ∧
    zoneGenDataLess "example.com" recSOA recA = some true ∧
    rrIncomp "example.com" recT100 recT100 :=
  ⟨(C1_comparator_strict_weak_order "example.com" recSOA recNS recA).2.1 (by decide),
   (C1_comparator_strict_weak_order "example.com" recSOA recNS recA).2.2.1
     (by decide) (by decide),
   (C1_comparator_strict_weak_order "example.com" recT100 recT100 recT100).2.2.2
     ⟨by decide, by decide⟩ ⟨by decide, by decide⟩⟩

/-- C2 as stated is false on the code: `recT100` and `recT200` are distinct
records the comparator treats as incomparable (equal label, type and address),
so both orders of the pair are valid sort results, yet they render different
bytes (the TTL column differs).  Both lists below are permutations of the same
record set and both satisfy the sort post-condition. -/
theorem C2_permutation_counterexample :
    [recT200, recT100].Perm [recT100, recT200] ∧
    sortedByLess "example.com" [recT100, recT200] ∧
    sortedByLess "example.com" [recT200, recT100] ∧
    renderSorted "example.com" 300 [recT100, recT200] ≠
      renderSorted "example.com" 300 [recT200, recT100] := by
  refine ⟨List.Perm.swap recT100 recT200 [], ?_, ?_, by decide⟩
  · unfold sortedByLess
    refine List.Pairwise.cons ?_ (List.pairwise_singleton _ _)
    intro y hy
    rw [List.mem_singleton.mp hy]
    decide
  · unfold sortedByLess
    refine List.Pairwise.cons ?_ (List.pairwise_singleton _ _)
    intro y hy
    rw [List.mem_singleton.mp hy]
    decide

/-- C2 amended: when the comparator orders every pair of distinct records of
the set (no distinct-but-incomparable pair), any two sorted permutations are
the same list, so rendering does not depend on the input permutation; and
rendering is a function of the sorted sequence, so rendering the same sequence
twice is byte-identical by definition. -/
theorem C2_render_permutation_invariant (o : String) (dttl : Nat)
    (input l1 l2 : List RR) (h1 : l1.Perm input) (h2 : l2.Perm input)
    (s1 : sortedByLess o l1) (s2 : sortedByLess o l2)
    (tot : ∀ x ∈ input, ∀ y ∈ input, x ≠ y →
      zoneGenDataLess o x y = some true ∨ zoneGenDataLess o y x = some true) :
    renderSorted o dttl l1 = renderSorted o dttl l2 := by
  have heq : l1 = l2 := by
    apply eq_of_perm_of_pairwise l1 l2 (h1.trans h2.symm) s1 s2
    intro x hx y hy hxy hyx
    by_contra hne
    rcases tot x (h1.mem_iff.mp hx) y (h1.mem_iff.mp hy) hne with h' | h'
    · exact hyx h'
    · exact hxy h'
  rw [heq]

/-- Closed instance of the amended C2: a two-record set whose records are
comparable renders identically from both sorted permutations. -/
theorem C2_render_permutation_invariant_witness :
    renderSorted "example.com" 300 [recSOA, recNS] =
      renderSorted "example.com" 300 [recSOA, recNS] :=
  C2_render_permutation_invariant "example.com" 300 [recSOA, recNS]
    [recSOA, recNS] [recSOA, recNS] (List.Perm.refl _) (List.Perm.refl _)
    (by
      unfold sortedByLess
      refine List.Pairwise.cons ?_ (List.pairwise_singleton _ _)
      intro y hy
      rw [List.mem_singleton.mp hy]
      decide)
    (by
      unfold sortedByLess
      refine List.Pairwise.cons ?_ (List.pairwise_singleton _ _)
      intro y hy
      rw [List.mem_singleton.mp hy]
      decide)
    (by
      intro x hx y hy hne
      fin_cases hx <;> fin_cases hy <;> first | (exact absurd rfl hne) | decide)

/-- C3 as stated is false on the code: `recT100` and `recT200` have equal
normalized labels, equal type A and equal four-byte addresses, and their
rendered lines differ with `recT100`'s line strictly smaller, yet the
comparator reports not-less in both directions instead of falling through to
the rendered-line comparison. -/
theorem C3_fallback_counterexample :
    ltCharList recT100.line.data recT200.line.data = true ∧
    recT100.line ≠ recT200.line ∧
    zoneGenDataLess "example.com" recT100 recT200 = some false ∧
    zoneGenDataLess "example.com" recT200 recT100 = some false := by
  refine ⟨by decide, by decide, by decide, by decide⟩

/-- C3 amended: with equal normalized labels and equal types, only record
types other than A and MX fall through to the full rendered-line comparison;
an A-record tie on the address, or an MX tie on the preference, is reported as
not-less in both directions (incomparable), so the rendered-line fallback
makes the order total only over non-A, non-MX records with distinct lines. -/
theorem C3_tie_fallback (o : String) (a b : RR)
    (hlab : addOrigin a.name (o ++ ".") = addOrigin b.name (o ++ "."))
    (htyp : a.rrtype = b.rrtype) :
    (a.rrtype ≠ TypeA → a.rrtype ≠ TypeMX →
      zoneGenDataLess o a b = some (ltCharList a.line.data b.line.data)) ∧
    (a.rrtype = TypeA → ∀ ip, a.to4 = some ip → b.to4 = some ip →
      zoneGenDataLess o a b = some false ∧ zoneGenDataLess o b a = some false) ∧
    (a.rrtype = TypeMX → a.preference = b.preference →
      zoneGenDataLess o a b = some false ∧ zoneGenDataLess o b a = some false) := by
  refine ⟨?_, ?_, ?_⟩
  · intro hA hM
    simp only [zoneGenDataLess]
    rw [if_neg (not_not_intro hlab), if_neg (not_not_intro htyp), if_neg hA, if_neg hM]
  · intro hA ip h4a h4b
    exact rrIncomp_iff.mpr ⟨hlab, htyp, Or.inl ⟨hA, ip, h4a, h4b⟩⟩
  · intro hM hp
    have hA : a.rrtype ≠ TypeA := by
      rw [hM]
      decide
    exact rrIncomp_iff.mpr ⟨hlab, htyp, Or.inr (Or.inl ⟨hA, hM, hp⟩)⟩

/-- Closed instance of the amended C3: two TXT records at one label are
ordered by their rendered lines, and tying A and MX pairs are incomparable. -/
theorem C3_tie_fallback_witness :
    zoneGenDataLess "example.com" recTXTa recTXTb =
      some (ltCharList recTXTa.line.data recTXTb.line.data) ∧
    zoneGenDataLess "example.com" recT100 recT200 = some false ∧
    zoneGenDataLess "example.com" recMX10 recMX10 = some false :=
  ⟨(C3_tie_fallback "example.com" recTXTa recTXTb (by decide) (by decide)).1
      (by decide) (by decide),
   ((C3_tie_fallback "example.com" recT100 recT200 (by decide) (by decide)).2.1
      (by decide) [1, 2, 3, 4] (by decide) (by decide)).1,
   ((C3_tie_fallback "example.com" recMX10 recMX10 (by decide) (by decide)).2.2
      (by decide) (by decide)).1⟩

theorem ne_of_data_ne {a b : String} (h : a.data ≠ b.data) : a ≠ b :=
  fun e => h (congrArg String.data e)

theorem data_append_dot (o : String) : (o ++ ".").data = o.data ++ ['.'] := by
  rw [String.data_append]

theorem star_name_data (o : String) :
    ("*." ++ o ++ ".").data = '*' :: '.' :: (o.data ++ ['.']) := by
  rw [data_append_dot, String.data_append]
  simp

theorem isFqdn_append_dot (x : String) : isFqdn (x ++ ".") = true := by
  unfold isFqdn
  rw [data_append_dot, List.getLast?_concat]
  decide

theorem addOrigin_star (o : String) :
    addOrigin ("*." ++ o ++ ".") (o ++ ".") = "*." ++ o ++ "." := by
  unfold addOrigin
  rw [if_neg (by rw [star_name_data]; simp), if_neg (by apply ne_of_data_ne; rw [star_name_data]; simp),
    if_neg (by apply ne_of_data_ne; rw [star_name_data]; simp), if_pos (isFqdn_append_dot _)]

theorem star_ne_origin (o : String) : "*." ++ o ++ "." ≠ o ++ "." := by
  apply ne_of_data_ne
  intro h
  rw [star_name_data, data_append_dot] at h
  have hlen := congrArg List.length h
  simp at hlen
  omega

theorem splitD_star (rest : List Char) :
    splitD [] ('*' :: '.' :: rest) = ['*'] :: splitD [] rest := by
  simp [splitD]

theorem splitD_star_name (o : String) :
    splitD [] (("*." ++ o ++ ".").data) = ['*'] :: splitD [] ((o ++ ".").data) := by
  rw [star_name_data, splitD_star, data_append_dot]

theorem revLess_append_common (P xs ys : List (List Char)) :
    revLess (P ++ xs) (P ++ ys) = revLess xs ys := by
  induction P with
  | nil => rfl
  | cons p P ih =>
    show lexLt ltCharList (p :: (P ++ xs)) (p :: (P ++ ys)) = _
    simp only [lexLt, if_pos rfl]
    exact ih

theorem zoneLabelLess_at_left {x : String} (hx : x ≠ "@") : zoneLabelLess "@" x = true := by
  unfold zoneLabelLess
  rw [if_neg (fun h : "@" = x => hx h.symm), if_pos rfl]

/-- C4: a record whose label normalizes to the zone apex compares below every
record with a different label.  The wildcard clause of the claim fails on the
code (see the counterexample); what holds is: the literal label `"*"` sorts
before every label other than `"@"` in `zoneLabelLess`, and a wildcard record
— whose comparison label is the fully qualified `*.origin.`, not `"*"` — is
ordered against any other record of the zone (relative components `comps`,
not the apex, not the wildcard label itself) by the right-to-left component
comparison of the relative labels: the comparator's value is exactly
`revLess [['*']] comps.reverse`, which is `true` when the outermost relative
component compares above `"*"` in plain string order, and also when that
component is `"*"` itself with further components below it (the
shorter-suffix rule), and `false` otherwise. -/
theorem C4_apex_wildcard_order (o : String) (a b : RR) (comps : List (List Char)) :
    (addOrigin a.name (o ++ ".") = o ++ "." → addOrigin b.name (o ++ ".") ≠ o ++ "." →
      zoneGenDataLess o a b = some true) ∧
    (∀ x : String, x ≠ "@" → x ≠ "*" → zoneLabelLess "*" x = true) ∧
    (a.name = "*." ++ o ++ "." → addOrigin b.name (o ++ ".") ≠ o ++ "." →
      splitD [] ((addOrigin b.name (o ++ ".")).data) = comps ++ splitD [] ((o ++ ".").data) →
      comps ≠ [] → comps ≠ [['*']] →
      zoneGenDataLess o a b = some (revLess [['*']] comps.reverse)) := by
  refine ⟨?_, ?_, ?_⟩
  · intro ha hb
    have hC : addOrigin a.name (o ++ ".") ≠ addOrigin b.name (o ++ ".") := by
      rw [ha]
      exact fun h => hb h.symm
    simp only [zoneGenDataLess]
    rw [if_pos hC, if_pos ha, if_neg hb]
    simp only [Option.some.injEq]
    exact zoneLabelLess_at_left (addOrigin_ne_at b.name o)
  · intro x hx9 hx8
    unfold zoneLabelLess
    rw [if_neg (fun h : "*" = x => hx8 h.symm), if_neg (by decide : ¬("*" : String) = "@"),
      if_neg hx9, if_pos rfl]
  · intro ha hbne hsplit hcomps_ne hstar_ne
    have hA : addOrigin a.name (o ++ ".") = "*." ++ o ++ "." := by
      rw [ha]
      exact addOrigin_star o
    have hS := splitD_ne_nil ([] : List Char) ((o ++ ".").data)
    have hCne : addOrigin a.name (o ++ ".") ≠ addOrigin b.name (o ++ ".") := by
      rw [hA]
      intro h
      have hs : ['*'] :: splitD [] ((o ++ ".").data) =
          comps ++ splitD [] ((o ++ ".").data) := by
        calc ['*'] :: splitD [] ((o ++ ".").data)
            = splitD [] (("*." ++ o ++ ".").data) := (splitD_star_name o).symm
          _ = splitD [] ((addOrigin b.name (o ++ ".")).data) := by rw [← h]
          _ = comps ++ splitD [] ((o ++ ".").data) := hsplit
      have hlen := congrArg List.length hs
      simp at hlen
      cases comps with
      | nil => exact hcomps_ne rfl
      | cons c0 rest =>
        cases rest with
        | nil =>
          have hc0 : ['*'] = c0 := by
            have h' : [['*']] ++ splitD [] ((o ++ ".").data) =
                [c0] ++ splitD [] ((o ++ ".").data) := hs
            have h2 := List.append_cancel_right h'
            injection h2
          exact hstar_ne (by rw [← hc0])
        | cons c1 rest' =>
          simp at hlen
          omega
    simp only [zoneGenDataLess]
    rw [if_pos hCne]
    simp only [Option.some.injEq]
    have hAno : addOrigin a.name (o ++ ".") ≠ o ++ "." := by
      rw [hA]
      exact star_ne_origin o
    rw [if_neg hAno, if_neg hbne, hA]
    unfold zoneLabelLess
    rw [if_neg (by rw [← hA]; exact hCne),
      if_neg (by apply ne_of_data_ne; rw [star_name_data]; simp),
      if_neg (addOrigin_ne_at b.name o),
      if_neg (by apply ne_of_data_ne; rw [star_name_data]; simp)]
    rw [if_neg (by
      intro h
      rw [h] at hsplit
      have hlen := congrArg List.length hsplit
      have h1 : (splitD [] ("*" : String).data).length = 1 := by decide
      rw [h1] at hlen
      rw [List.length_append] at hlen
      have hc1 : 1 ≤ comps.length := List.length_pos.mpr hcomps_ne
      have hs1 : 1 ≤ (splitD [] ((o ++ ".").data)).length := List.length_pos.mpr hS
      omega)]
    rw [splitD_star_name, hsplit, List.reverse_cons, List.reverse_append,
      revLess_append_common]

/-- C4's wildcard clause is false on the code: `recBang`'s relative label
`"!"` is neither the apex nor the wildcard, yet the wildcard record does not
compare below it — the comparison is performed on fully qualified names, so
the dedicated `"*"` rule is never reached and `'!' < '*'` decides. -/
theorem C4_wildcard_counterexample :
    trimDomainName recBang.name "example.com" ≠ "@" ∧
    trimDomainName recBang.name "example.com" ≠ "*" ∧
    zoneGenDataLess "example.com" recWild recBang = some false ∧
    zoneGenDataLess "example.com" recBang recWild = some true := by
  refine ⟨by decide, by decide, by decide, by decide⟩

/-- Closed instance of the amended C4: the apex record sorts below `www`, the
literal `"*"` label sorts below `"www"`, the wildcard record sorts below the
`www` record (outermost component `"www"` above `"*"`), and also below the
`a.*` record by the shorter-suffix rule (outermost component `"*"` itself). -/
theorem C4_apex_wildcard_order_witness :
    zoneGenDataLess "example.com" recSOA recAwww = some true ∧
    zoneLabelLess "*" "www" = true ∧
    zoneGenDataLess "example.com" recWild recAwww = some true ∧
    zoneGenDataLess "example.com" recWild recAStar = some true := by
  refine ⟨(C4_apex_wildcard_order "example.com" recSOA recAwww []).1 (by decide) (by decide),
    (C4_apex_wildcard_order "example.com" recSOA recAwww []).2.1 "www"
      (by decide) (by decide), ?_, ?_⟩
  · have h := (C4_apex_wildcard_order "example.com" recWild recAwww ["www".data]).2.2
      (by decide) (by decide) (by decide) (by decide) (by decide)
    rw [h]
    decide
  · have h := (C4_apex_wildcard_order "example.com" recWild recAStar
      ["a".data, "*".data]).2.2
      (by decide) (by decide) (by decide) (by decide) (by decide)
    rw [h]
    decide

theorem lexLt_firstDiff {α : Type} [DecidableEq α] (lt : α → α → Bool) (d : α) :
    ∀ (xs ys : List α) (i : Nat),
      (∀ j, j < i → xs.getD j d = ys.getD j d) → i < xs.length → i < ys.length →
      xs.getD i d ≠ ys.getD i d →
      lexLt lt xs ys = lt (xs.getD i d) (ys.getD i d) := by
  intro xs
  induction xs with
  | nil =>
    intro ys i _ hx _ _
    simp at hx
  | cons x xs ih =>
    intro ys i hpre hx hy hne
    cases ys with
    | nil => simp at hy
    | cons y ys =>
      cases i with
      | zero =>
        simp only [List.getD_cons_zero] at hne ⊢
        show (if x = y then lexLt lt xs ys else lt x y) = lt x y
        rw [if_neg hne]
      | succ k =>
        have hxy : x = y := by
          have := hpre 0 (Nat.succ_pos k)
          simpa using this
        simp only [List.getD_cons_succ] at hne ⊢
        show (if x = y then lexLt lt xs ys else lt x y) = lt (xs.getD k d) (ys.getD k d)
        rw [if_pos hxy]
        exact ih ys k
          (fun j hj => by
            have := hpre (j + 1) (Nat.succ_lt_succ hj)
            simpa using this)
          (Nat.lt_of_succ_lt_succ (by simpa using hx))
          (Nat.lt_of_succ_lt_succ (by simpa using hy)) hne

theorem lexLt_allEq {α : Type} [DecidableEq α] (lt : α → α → Bool) (d : α) :
    ∀ (xs ys : List α),
      (∀ j, j < min xs.length ys.length → xs.getD j d = ys.getD j d) →
      lexLt lt xs ys = decide (xs.length < ys.length) := by
  intro xs
  induction xs with
  | nil =>
    intro ys _
    cases ys with
    | nil => rfl
    | cons y ys => simp [lexLt]
  | cons x xs ih =>
    intro ys hpre
    cases ys with
    | nil => simp [lexLt]
    | cons y ys =>
      have hxy : x = y := by
        have := hpre 0 (by simp [Nat.succ_min_succ])
        simpa using this
      show (if x = y then lexLt lt xs ys else lt x y) = _
      rw [if_pos hxy]
      rw [ih ys (fun j hj => by
        have := hpre (j + 1) (by
          simp only [List.length_cons, Nat.succ_min_succ]
          omega)
        simpa using this)]
      simp

/-- C5: for distinct labels that are neither `"@"` nor `"*"`, the comparison
splits both labels on `'.'` and walks the components from the rightmost
toward the left (the reversed component lists below): the first index at
which the component pair differs decides by plain string comparison, and when
every compared pair agrees (one sequence a right-aligned suffix of the other)
the label with fewer components sorts first. -/
theorem C5_label_component_comparison (a b : String) (hne : a ≠ b) (ha9 : a ≠ "@")
    (hb9 : b ≠ "@") (ha8 : a ≠ "*") (hb8 : b ≠ "*") (i : Nat) :
    ((∀ j, j < i → (splitD [] a.data).reverse.getD j [] = (splitD [] b.data).reverse.getD j []) →
      i < (splitD [] a.data).length → i < (splitD [] b.data).length →
      (splitD [] a.data).reverse.getD i [] ≠ (splitD [] b.data).reverse.getD i [] →
      zoneLabelLess a b =
        ltCharList ((splitD [] a.data).reverse.getD i []) ((splitD [] b.data).reverse.getD i [])) ∧
    ((∀ j, j < min (splitD [] a.data).length (splitD [] b.data).length →
        (splitD [] a.data).reverse.getD j [] = (splitD [] b.data).reverse.getD j []) →
      zoneLabelLess a b = decide ((splitD [] a.data).length < (splitD [] b.data).length)) := by
  have hzl : zoneLabelLess a b =
      revLess (splitD [] a.data).reverse (splitD [] b.data).reverse := by
    unfold zoneLabelLess
    rw [if_neg hne, if_neg ha9, if_neg hb9, if_neg ha8, if_neg hb8]
  constructor
  · intro hpre hxa hxb hdiff
    rw [hzl]
    exact lexLt_firstDiff ltCharList [] _ _ i hpre
      (by simpa using hxa) (by simpa using hxb) hdiff
  · intro hpre
    rw [hzl]
    have := lexLt_allEq ltCharList ([] : List Char) (splitD [] a.data).reverse
      (splitD [] b.data).reverse (by simpa using hpre)
    simpa using this

/-- Closed instance of C5: labels `a.x` and `b.x` differ first at the second
component from the right, and label `x` is a right-aligned suffix of `a.x`
with fewer components, so it sorts first. -/
theorem C5_label_component_comparison_witness :
    zoneLabelLess "a.x" "b.x" = ltCharList "a".data "b".data ∧
    zoneLabelLess "x" "a.x" = true :=
  ⟨(C5_label_component_comparison "a.x" "b.x" (by decide) (by decide) (by decide)
      (by decide) (by decide) 1).1
      (by decide) (by decide) (by decide) (by decide),
   by
    have h := (C5_label_component_comparison "x" "a.x" (by decide) (by decide) (by decide)
      (by decide) (by decide) 0).2 (by decide)
    rw [h]
    decide⟩

theorem zoneGenDataLess_of_types {o : String} {a b : RR}
    (hlab : addOrigin a.name (o ++ ".") = addOrigin b.name (o ++ "."))
    (ht : a.rrtype ≠ b.rrtype) :
    zoneGenDataLess o a b = some (zoneRrtypeLess a.rrtype b.rrtype) := by
  simp only [zoneGenDataLess]
  rw [if_neg (not_not_intro hlab), if_pos ht]

/-- C6: between records at the same normalized label with distinct types, SOA
sorts below every other type, NS below everything except SOA, and the
remaining types compare by raw numeric code; consequently SOA, NS and A
records at one label come out in the order SOA, NS, A. -/
theorem C6_type_precedence (o : String) (t u : Nat) (htu : t ≠ u) (ra rb : RR)
    (hlab : addOrigin ra.name (o ++ ".") = addOrigin rb.name (o ++ ".")) :
    (t = TypeSOA → zoneRrtypeLess t u = true) ∧
    (u = TypeSOA → t ≠ TypeSOA → zoneRrtypeLess t u = false) ∧
    (t = TypeNS → u ≠ TypeSOA → zoneRrtypeLess t u = true) ∧
    (u = TypeNS → t ≠ TypeSOA → t ≠ TypeNS → zoneRrtypeLess t u = false) ∧
    (t ≠ TypeSOA → u ≠ TypeSOA → t ≠ TypeNS → u ≠ TypeNS →
      zoneRrtypeLess t u = decide (t < u)) ∧
    (ra.rrtype = TypeSOA → rb.rrtype = TypeNS → zoneGenDataLess o ra rb = some true) ∧
    (ra.rrtype = TypeSOA → rb.rrtype = TypeA → zoneGenDataLess o ra rb = some true) ∧
    (ra.rrtype = TypeNS → rb.rrtype = TypeA → zoneGenDataLess o ra rb = some true) := by
  refine ⟨?_, ?_, ?_, ?_, ?_, ?_, ?_, ?_⟩
  · intro ht
    subst ht
    unfold zoneRrtypeLess
    rw [if_neg htu, if_pos rfl]
  · intro hu ht
    subst hu
    unfold zoneRrtypeLess
    rw [if_neg htu, if_neg ht, if_pos rfl]
  · intro ht hu
    subst ht
    unfold zoneRrtypeLess
    rw [if_neg htu, if_neg (by decide : ¬TypeNS = TypeSOA), if_neg hu, if_pos rfl]
  · intro hu ht9 ht2
    subst hu
    unfold zoneRrtypeLess
    rw [if_neg htu, if_neg ht9, if_neg (by decide : ¬TypeNS = TypeSOA), if_neg ht2,
      if_pos rfl]
  · intro ht9 hu9 ht2 hu2
    unfold zoneRrtypeLess
    rw [if_neg htu, if_neg ht9, if_neg hu9, if_neg ht2, if_neg hu2]
  · intro ha hb
    rw [zoneGenDataLess_of_types hlab (by rw [ha, hb]; decide), ha, hb]
    decide
  · intro ha hb
    rw [zoneGenDataLess_of_types hlab (by rw [ha, hb]; decide), ha, hb]
    decide
  · intro ha hb
    rw [zoneGenDataLess_of_types hlab (by rw [ha, hb]; decide), ha, hb]
    decide

/-- Closed instance of C6 over the apex records of `example.com`. -/
theorem C6_type_precedence_witness :
    zoneRrtypeLess TypeSOA TypeNS = true ∧
    zoneGenDataLess "example.com" recSOA recNS = some true ∧
    zoneGenDataLess "example.com" recSOA recA = some true ∧
    zoneGenDataLess "example.com" recNS recA = some true := by
  have h := C6_type_precedence "example.com" TypeSOA TypeNS (by decide) recSOA recNS
    (by decide)
  have h2 := C6_type_precedence "example.com" TypeSOA TypeA (by decide) recSOA recA
    (by decide)
  have h3 := C6_type_precedence "example.com" TypeNS TypeA (by decide) recNS recA
    (by decide)
  exact ⟨h.1 rfl, h.2.2.2.2.2.1 (by decide) (by decide),
    h2.2.2.2.2.2.2.1 (by decide) (by decide), h3.2.2.2.2.2.2.2 (by decide) (by decide)⟩

/-- C7: at equal normalized labels and equal types, two A records compare by
their four-byte addresses as an unsigned byte sequence (so `10.0.0.2` sorts
before `10.0.0.10`, the opposite of the plain string comparison of the dotted
forms), and two MX records compare by numeric preference ascending. -/
theorem C7_secondary_keys (o : String) (a b m n : RR)
    (hlab : addOrigin a.name (o ++ ".") = addOrigin b.name (o ++ "."))
    (hlabmn : addOrigin m.name (o ++ ".") = addOrigin n.name (o ++ "."))
    (hA : a.rrtype = TypeA) (hB : b.rrtype = TypeA)
    (ipa ipb : List Nat) (h4a : a.to4 = some ipa) (h4b : b.to4 = some ipb)
    (hM : m.rrtype = TypeMX) (hN : n.rrtype = TypeMX) :
    zoneGenDataLess o a b = some (bytesCompareLt ipa ipb) ∧
    zoneGenDataLess o m n = some (decide (m.preference < n.preference)) ∧
    bytesCompareLt [10, 0, 0, 2] [10, 0, 0, 10] = true ∧
    ltCharList "10.0.0.2".data "10.0.0.10".data = false ∧
    (m.preference < n.preference → zoneGenDataLess o m n = some true) := by
  have hmx : zoneGenDataLess o m n = some (decide (m.preference < n.preference)) := by
    simp only [zoneGenDataLess]
    rw [if_neg (not_not_intro hlabmn), if_neg (not_not_intro (hM.trans hN.symm)),
      if_neg (by rw [hM]; decide), if_pos hM]
  refine ⟨?_, hmx, by decide, by decide, ?_⟩
  · simp only [zoneGenDataLess]
    rw [if_neg (not_not_intro hlab), if_neg (not_not_intro (hA.trans hB.symm)),
      if_pos hA, h4a, h4b]
  · intro hp
    rw [hmx]
    simp [hp]

/-- Closed instance of C7: `10.0.0.2` sorts before `10.0.0.10`, and preference
10 before preference 20. -/
theorem C7_secondary_keys_witness :
    zoneGenDataLess "example.com" recA2 recA10 = some true ∧
    zoneGenDataLess "example.com" recMX10 recMX20 = some true := by
  have h := C7_secondary_keys "example.com" recA2 recA10 recMX10 recMX20 (by decide)
    (by decide) (by decide) (by decide) [10, 0, 0, 2] [10, 0, 0, 10] (by decide) (by decide)
    (by decide) (by decide)
  refine ⟨?_, h.2.2.2.2 (by decide)⟩
  rw [h.1]
  decide

theorem take_suffix_ne_empty {fq sfx : String} (hne : fq ≠ sfx)
    (hdrop : fq.data.drop (fq.data.length - sfx.data.length) = sfx.data) :
    String.mk (fq.data.take (fq.data.length - sfx.data.length)) ≠ "" := by
  intro h
  have htake : fq.data.take (fq.data.length - sfx.data.length) = [] := congrArg String.data h
  have hsplit : fq.data = fq.data.take (fq.data.length - sfx.data.length) ++
      fq.data.drop (fq.data.length - sfx.data.length) := (List.take_append_drop _ _).symm
  rw [htake, hdrop] at hsplit
  simp at hsplit
  exact hne (String.ext hsplit)

theorem trimDomainName_ne_empty (s o : String) : trimDomainName s o ≠ "" := by
  simp only [trimDomainName]
  by_cases h1 : s.data = []
  · rw [if_pos h1]
    decide
  · rw [if_neg h1]
    generalize (if isFqdn s then s else s ++ ".") = fq
    generalize (if isFqdn o then o else o ++ ".") = ofq
    by_cases h2 : fq = ofq
    · rw [if_pos h2]
      decide
    · rw [if_neg h2]
      by_cases h3 : ofq ≠ "." ∧ fq ≠ "." ++ ofq ∧
          fq.data.drop (fq.data.length - ("." ++ ofq).data.length) = ("." ++ ofq).data
      · rw [if_pos h3]
        exact take_suffix_ne_empty h3.2.1 h3.2.2
      · rw [if_neg h3]
        intro h
        exact h1 (by rw [h])

theorem recordFields_emitted {o : String} {dttl i : Nat} {prev : String} {r : RR}
    {fields : List String} {prev' : String}
    (h : recordFields o dttl i prev r = some (some fields, prev')) :
    prev' = trimDomainName r.name o ∧
    fields = [if 0 < i ∧ trimDomainName r.name o = prev then "" else trimDomainName r.name o,
      if r.ttl ≠ dttl ∧ r.ttl ≠ 0 then ((splitTabN 5 r.line.data).map String.mk).getD 1 ""
        else "",
      "IN", typeToString r.rrtype, ((splitTabN 5 r.line.data).map String.mk).getD 4 ""] := by
  simp only [recordFields] at h
  by_cases h1 : r.line.data = []
  · rw [if_pos h1] at h
    exact absurd h (by simp)
  · rw [if_neg h1] at h
    by_cases h2 : r.line.data.headD ' ' = ';'
    · rw [if_pos h2] at h
      simp at h
    · rw [if_neg h2] at h
      by_cases h3 : ((splitTabN 5 r.line.data).map String.mk).length < 5
      · rw [if_pos h3] at h
        exact absurd h (by simp)
      · rw [if_neg h3] at h
        by_cases h4 : r.cls ≠ ClassINET
        · rw [if_pos h4] at h
          exact absurd h (by simp)
        · rw [if_neg h4] at h
          simp only [Option.some.injEq, Prod.mk.injEq] at h
          exact ⟨h.2.symm, h.1.symm⟩

theorem recordFields_none_iff {o : String} {dttl i : Nat} {prev : String} {r : RR} :
    recordFields o dttl i prev r = none ↔ fatalRecord r := by
  unfold fatalRecord
  simp only [recordFields]
  split_ifs with h1 h2 h3 h4
  · constructor
    · intro _
      constructor
      · rw [h1]
        decide
      · left
        rw [h1]
        decide
    · intro _
      rfl
  · constructor
    · intro h
      exact absurd h (by simp)
    · intro hf
      exact absurd h2 hf.1
  · constructor
    · intro _
      refine ⟨h2, Or.inl ?_⟩
      simpa using h3
    · intro _
      rfl
  · constructor
    · intro _
      exact ⟨h2, Or.inr h4⟩
    · intro _
      rfl
  · constructor
    · intro h
      exact absurd h (by simp)
    · intro hf
      rcases hf.2 with h' | h'
      · exact absurd (by simpa using h' : ((splitTabN 5 r.line.data).map String.mk).length < 5) h3
      · exact absurd h' h4

theorem emitRecord_none_iff {o : String} {dttl i : Nat} {prev : String} {r : RR} :
    emitRecord o dttl i prev r = none ↔ fatalRecord r := by
  rw [← @recordFields_none_iff o dttl i prev r]
  unfold emitRecord
  cases recordFields o dttl i prev r <;> simp

theorem emitLoop_none_iff (o : String) (dttl : Nat) :
    ∀ (l : List RR) (i : Nat) (prev : String),
      emitLoop o dttl i prev l = none ↔ ∃ r ∈ l, fatalRecord r := by
  intro l
  induction l with
  | nil =>
    intro i prev
    simp [emitLoop]
  | cons r rs ih =>
    intro i prev
    simp only [emitLoop]
    cases he : emitRecord o dttl i prev r with
    | none =>
      constructor
      · intro _
        exact ⟨r, List.mem_cons_self r rs, emitRecord_none_iff.mp he⟩
      · intro _
        rfl
    | some p =>
      have hnf : ¬fatalRecord r := fun hf => by
        rw [emitRecord_none_iff.mpr hf] at he
        exact Option.noConfusion he
      obtain ⟨fo, prev'⟩ := p
      cases fo with
      | none =>
        show emitLoop o dttl (i + 1) prev' rs = none ↔ _
        rw [ih (i + 1) prev']
        constructor
        · rintro ⟨r', hm, hf⟩
          exact ⟨r', List.mem_cons_of_mem r hm, hf⟩
        · rintro ⟨r', hm, hf⟩
          rcases List.mem_cons.mp hm with he' | hm'
          · exact absurd (he' ▸ hf) hnf
          · exact ⟨r', hm', hf⟩
      | some line =>
        show (emitLoop o dttl (i + 1) prev' rs).map (line :: ·) = none ↔ _
        rw [show ((emitLoop o dttl (i + 1) prev' rs).map (line :: ·) = none) ↔
            emitLoop o dttl (i + 1) prev' rs = none by
          cases emitLoop o dttl (i + 1) prev' rs <;> simp]
        rw [ih (i + 1) prev']
        constructor
        · rintro ⟨r', hm, hf⟩
          exact ⟨r', List.mem_cons_of_mem r hm, hf⟩
        · rintro ⟨r', hm, hf⟩
          rcases List.mem_cons.mp hm with he' | hm'
          · exact absurd (he' ▸ hf) hnf
          · exact ⟨r', hm', hf⟩

/-- C8: per emitted record, the renderer's display-field derivation: a record
whose canonical line starts with the comment marker is skipped, emitting
nothing and leaving the previous-label state unchanged; an emitted record
updates the previous-label state to its origin-relative label, its label field
is empty exactly when that relative label equals the previous-label state (the
relative label of the immediately preceding emitted record; the relative label
is never the empty string, so no spurious elision occurs), and its TTL field is
empty when the record's TTL equals the zone default or zero, and is the
canonical line's TTL column otherwise. -/
theorem C8_display_field_derivation (o : String) (dttl i : Nat) (prev : String) (r : RR) :
    (r.line.data ≠ [] → r.line.data.headD ' ' = ';' →
      emitRecord o dttl i prev r = some (none, prev)) ∧
    (∀ fields prev', recordFields o dttl i prev r = some (some fields, prev') →
      prev' = trimDomainName r.name o ∧
      (fields.getD 0 "" = "" ↔ 0 < i ∧ trimDomainName r.name o = prev) ∧
      (fields.getD 0 "" ≠ "" → fields.getD 0 "" = trimDomainName r.name o) ∧
      ((r.ttl = dttl ∨ r.ttl = 0) → fields.getD 1 "" = "") ∧
      (r.ttl ≠ dttl ∧ r.ttl ≠ 0 →
        fields.getD 1 "" = ((splitTabN 5 r.line.data).map String.mk).getD 1 "")) ∧
    (∀ s, trimDomainName s o ≠ "") := by
  refine ⟨?_, ?_, fun s => trimDomainName_ne_empty s o⟩
  · intro hne hc
    unfold emitRecord recordFields
    rw [if_neg hne, if_pos hc]
    rfl
  · intro fields prev' h
    obtain ⟨hp, hf⟩ := recordFields_emitted h
    refine ⟨hp, ?_, ?_, ?_, ?_⟩
    · rw [hf]
      by_cases hcond : 0 < i ∧ trimDomainName r.name o = prev
      · rw [if_pos hcond]
        simpa using hcond
      · rw [if_neg hcond]
        simp only [List.getD_cons_zero]
        constructor
        · intro h'
          exact absurd h' (trimDomainName_ne_empty r.name o)
        · intro h'
          exact absurd h' hcond
    · intro h'
      rw [hf]
      rw [hf] at h'
      by_cases hcond : 0 < i ∧ trimDomainName r.name o = prev
      · rw [if_pos hcond] at h'
        simp at h'
      · rw [if_neg hcond]
        simp
    · intro httl
      rw [hf]
      have : ¬(r.ttl ≠ dttl ∧ r.ttl ≠ 0) := by
        rcases httl with h' | h' <;> simp [h']
      rw [if_neg this]
      simp
    · intro httl
      rw [hf]
      rw [if_pos httl]
      simp

/-- Closed instance of C8: a comment record is skipped with the previous label
untouched; at position 1 with previous label `"x"`, the record at
`x.example.com.` elides its label and emits its TTL column `100` (differing
from default 300), while at position 0 it emits the label `"x"`. -/
theorem C8_display_field_derivation_witness :
    emitRecord "example.com" 300 3 "keep" recCmtBad = some (none, "keep") ∧
    (["", "100", "IN", "A", "1.2.3.4"].getD 0 "" = "" ↔
      0 < 1 ∧ trimDomainName recT100.name "example.com" = "x") ∧
    trimDomainName recT100.name "example.com" ≠ "" :=
  ⟨(C8_display_field_derivation "example.com" 300 3 "keep" recCmtBad).1
     (by decide) (by decide),
   ((C8_display_field_derivation "example.com" 300 1 "x" recT100).2.1
     ["", "100", "IN", "A", "1.2.3.4"] "x" (by decide)).2.1,
   (C8_display_field_derivation "example.com" 300 1 "x" recT100).2.2
     recT100.name⟩

/-- C9 amended: the render fails (and then yields no output at all, partial or
otherwise) exactly when some record whose canonical line does not begin with
the comment marker has fewer than five tab-separated fields or declares a
class other than Internet; records whose lines begin with the comment marker
are exempt — they are skipped silently even when malformed. -/
theorem C9_fatal_conditions (o : String) (dttl : Nat) (l : List RR) :
    (renderSorted o dttl l = none ↔ ∃ r ∈ l, fatalRecord r) ∧
    (generateZoneFileHelper o dttl l = none ↔ ∃ r ∈ l, fatalRecord r) := by
  have h1 : renderSorted o dttl l = none ↔ emitLoop o dttl 0 "" l = none := by
    unfold renderSorted
    cases emitLoop o dttl 0 "" l <;> simp
  have h2 : generateZoneFileHelper o dttl l = none ↔ renderSorted o dttl l = none := by
    unfold generateZoneFileHelper
    cases renderSorted o dttl l <;> simp
  rw [h1, h2, h1, emitLoop_none_iff]
  exact ⟨Iff.rfl, Iff.rfl⟩

/-- C9 as stated is false on the code: `recCmtBad` declares class CHAOS and
its canonical line has a single tab-separated field, yet the render of the
one-record zone succeeds because the line begins with the comment marker and
is silently dropped before either fatal check runs. -/
theorem C9_comment_exemption_counterexample :
    recCmtBad.cls ≠ ClassINET ∧
    (splitTabN 5 recCmtBad.line.data).length < 5 ∧
    renderSorted "example.com" 300 [recCmtBad] = some "$TTL 300\n" := by
  refine ⟨by decide, by decide, by decide⟩

/-- C10: on every execution of `WriteZoneFile` that returns (modelled over
every `sortedByLess` permutation the internal `sort.Sort` could produce), the
returned `error` value is `nil`: the helper's only return statement is
`return nil`, and every failure path terminates the process instead of
reporting through the error. -/
theorem C10_writezonefile_error_nil (records l' : List RR) (o : String) (dttl : Nat)
    (hperm : l'.Perm records) (hsort : sortedByLess o l') (out : String) (e : GoError)
    (h : generateZoneFileHelper o dttl l' = some (out, e)) : e = GoError.nil := by
  unfold generateZoneFileHelper at h
  cases hr : renderSorted o dttl l' with
  | none =>
    rw [hr] at h
    exact absurd h (by simp)
  | some s =>
    rw [hr] at h
    simp only [Option.map_some', Option.some.injEq, Prod.mk.injEq] at h
    exact h.2.symm

/-- Closed instance of C10: rendering the empty zone returns the header with a
`nil` error. -/
theorem C10_writezonefile_error_nil_witness : GoError.nil = GoError.nil :=
  C10_writezonefile_error_nil [] [] "example.com" 300 (List.Perm.refl [])
    (List.Pairwise.nil) "$TTL 300\n" GoError.nil (by decide)
